import Mathlib

/-!
Verification of the edlib `apps/aligner/aligner.cpp` driver: a shallow embedding of
its sequence readers (paired-line reader and FASTA parser), its benchmark driver
loop, its CLI validation stage, and its alignment renderer (`printAlignment`),
together with proofs of the specified properties.
-/

set_option linter.unusedVariables false

/-- Edit operations of an edlib alignment path, as declared in edlib.h:
EDLIB_EDOP_MATCH = 0, EDLIB_EDOP_INSERT = 1, EDLIB_EDOP_DELETE = 2,
EDLIB_EDOP_MISMATCH = 3. -/
inductive EdOp where
  | EDLIB_EDOP_MATCH
  | EDLIB_EDOP_INSERT
  | EDLIB_EDOP_DELETE
  | EDLIB_EDOP_MISMATCH
deriving DecidableEq, Repr, Inhabited

/-- Alignment modes of edlib, as declared in edlib.h. -/
inductive EdlibAlignMode where
  | EDLIB_MODE_NW
  | EDLIB_MODE_HW
  | EDLIB_MODE_SHW
deriving DecidableEq, Repr, Inhabited

/-- Alignment tasks of edlib, as declared in edlib.h. -/
inductive EdlibAlignTask where
  | EDLIB_TASK_DISTANCE
  | EDLIB_TASK_LOC
  | EDLIB_TASK_PATH
deriving DecidableEq, Repr, Inhabited

/-- Appends a byte to the last sequence of a list of sequences, modelling
seqs->back().push_back(c) at aligner.cpp line 206. On an empty list it is a
no-op; the parser only reaches this call with inSequence = true, which
guarantees the list is nonempty. -/
def pushLast (seqs : List (List Char)) (c : Char) : List (List Char) :=
  match seqs with
  | [] => []
  | [r] => [r ++ [c]]
  | r :: rest => r :: pushLast rest c

/-- State of the readFastaSequences loop (aligner.cpp lines 185-186): the two
boolean flags plus the records accumulated so far in the output vector. -/
structure FastaState where
  inHeader : Bool
  inSequence : Bool
  seqs : List (List Char)
deriving DecidableEq, Repr

/-- Processing of one byte by readFastaSequences (aligner.cpp lines 192-207). -/
def fastaStep (s : FastaState) (c : Char) : FastaState :=
  if s.inHeader then
    if c = '\n' then { s with inHeader := false } else s
  else if c = '>' then
    { s with inHeader := true, inSequence := false }
  else if c = '\r' ∨ c = '\n' then
    s
  else if s.inSequence = false then
    { inHeader := s.inHeader, inSequence := true, seqs := s.seqs ++ [[c]] }
  else
    { s with seqs := pushLast s.seqs c }

/-- readFastaSequences (aligner.cpp lines 179-214) applied to the byte stream of
an already-opened file: the chunked fread loop processes every byte of the file
in order, so it is the fold of `fastaStep` over the stream. -/
def readFastaSequences (input : List Char) : List (List Char) :=
  (input.foldl fastaStep { inHeader := false, inSequence := false, seqs := [] }).seqs

/-- Number of FASTA marker bytes in a stream. -/
def countMarkers (input : List Char) : Nat :=
  input.countP (fun c => c == '>')

/-- Residue bytes of a record body: every byte that is not a carriage return or a
line feed (these are the bytes the parser appends to the current record). -/
def bodyResidues (b : List Char) : List Char :=
  b.filter (fun c => !(c == '\r' || c == '\n'))

/-- Byte stream of one FASTA block: a marker, the header text, the header's
terminating newline, then the body bytes (which may themselves contain line
breaks; no trailing newline is required). -/
def renderBlock (h : List Char) (b : List Char) : List Char :=
  '>' :: h ++ '\n' :: b

/-- Byte stream of a sequence of FASTA blocks. -/
def renderFasta (blocks : List (List Char × List Char)) : List Char :=
  (blocks.map (fun p => renderBlock p.1 p.2)).flatten

/-- Well-formed FASTA block: header text holds no newline and no marker, the
body holds no marker, and the body holds at least one residue byte. -/
def wellFormedBlock (p : List Char × List Char) : Prop :=
  '\n' ∉ p.1 ∧ '>' ∉ p.1 ∧ '>' ∉ p.2 ∧ bodyResidues p.2 ≠ []

instance (p : List Char × List Char) : Decidable (wellFormedBlock p) := by
  unfold wellFormedBlock; infer_instance

/-- POSIX getline as used by read_input (aligner.cpp lines 35-38): on an empty
stream it reports end of input; otherwise it returns the next line up to and
including its newline, or the rest of the stream when the last line has no
terminating newline, together with the unread remainder of the stream. -/
def getline : List Char → Option (List Char × List Char)
  | [] => none
  | c :: rest =>
    if c = '\n' then some ([c], rest)
    else
      match getline rest with
      | none => some ([c], [])
      | some (l, r) => some (c :: l, r)

/-- read_input (aligner.cpp lines 30-40): reads two consecutive lines; reports
end of input when either of the two getline calls hits end of stream. -/
def read_input (s : List Char) : Option ((List Char × List Char) × List Char) :=
  match getline s with
  | none => none
  | some (l1, s1) =>
    match getline s1 with
    | none => none
    | some (l2, s2) => some ((l1, l2), s2)

/-- Fueled form of the driver's while(read_input(...)) loop (aligner.cpp line
153), collecting the (query line, target line) pairs it reads. Every successful
read_input consumes at least one byte, so fuel equal to the stream length is
enough for the loop to run to completion. -/
def readPairsFuel : Nat → List Char → List (List Char × List Char)
  | 0, _ => []
  | Nat.succ n, s =>
    match read_input s with
    | none => []
    | some (p, s1) => p :: readPairsFuel n s1

/-- All (query line, target line) pairs the driver loop reads from a stream. -/
def readPairs (s : List Char) : List (List Char × List Char) :=
  readPairsFuel s.length s

/-- Consecutive pairing of a list of lines; an odd trailing line is dropped. -/
def pairUp {α : Type} : List α → List (α × α)
  | a :: b :: rest => (a, b) :: pairUp rest
  | _ => []

/-- Byte stream holding the given lines, each terminated by a newline. -/
def linesToStream (ls : List (List Char)) : List Char :=
  (ls.map (fun l => l ++ ['\n'])).flatten

/-- CLI-resolved configuration of the driver (aligner.cpp lines 46-60, 119-134,
144): score cutoff k, mode code, task, the -n value, and the repeat count. -/
structure Config where
  k : Int
  modeCode : EdlibAlignMode
  alignTask : EdlibAlignTask
  numBestSeqs : Int
  numRepeats : Int
deriving DecidableEq, Repr

/-- Observable engine-facing actions of the driver's main loop. -/
inductive Event where
  | align (q t : List Char) (k : Int) (modeCode : EdlibAlignMode) (alignTask : EdlibAlignTask)
  | free
  | timingReport
deriving DecidableEq, Repr

/-- Boolean test for an engine invocation event. -/
def isAlign : Event → Bool
  | Event.align _ _ _ _ _ => true
  | _ => false

/-- Boolean test for a result-release event. -/
def isFree : Event → Bool
  | Event.free => true
  | _ => false

/-- Boolean test for the timing-report event. -/
def isReport : Event → Bool
  | Event.timingReport => true
  | _ => false

/-- The repetition loop body of the driver (aligner.cpp lines 156-161): each of
the numRepeats iterations invokes edlibAlign on query + 1 with length
queryLength - 1 and target + 1 with length targetLength - 1 (the leading
metadata byte of each raw line stripped, the rest of the line kept), then
releases the result. -/
def repeatRun (cfg : Config) (q t : List Char) : Nat → List Event
  | 0 => []
  | Nat.succ n =>
    Event.align (q.drop 1) (t.drop 1) cfg.k cfg.modeCode cfg.alignTask ::
      Event.free :: repeatRun cfg q t n

/-- Events of the driver for one sequence pair: the repetition loop runs
numRepeats times (zero times when numRepeats is not positive, since the C loop
counter comparison fails immediately). -/
def runPair (cfg : Config) (q t : List Char) : List Event :=
  repeatRun cfg q t cfg.numRepeats.toNat

/-- Events of the driver's whole main loop on a stream (aligner.cpp lines
147-168): every pair read_input yields is processed by the repetition loop, and
one timing report is printed after the loop over all pairs ends. -/
def driverRun (cfg : Config) (stream : List Char) : List Event :=
  ((readPairs stream).flatMap (fun p => runPair cfg p.1 p.2)) ++ [Event.timingReport]

/-- Checks that every engine invocation in a trace is immediately followed by a
release of its result. -/
def alignsReleased : List Event → Bool
  | [] => true
  | Event.align _ _ _ _ _ :: Event.free :: rest => alignsReleased rest
  | Event.align _ _ _ _ _ :: _ => false
  | _ :: rest => alignsReleased rest

/-- Query buffer of an engine invocation event. -/
def alignQueryBuf : Event → Option (List Char)
  | Event.align q _ _ _ _ => some q
  | _ => none

/-- Target buffer of an engine invocation event. -/
def alignTargetBuf : Event → Option (List Char)
  | Event.align _ t _ _ _ => some t
  | _ => none

/-- Command-line state after the getopt loop (aligner.cpp lines 42-75):
number of positional arguments (argc - optind), whether an invalid option was
seen, and the raw option values. -/
structure CliArgs where
  positionalCount : Nat
  invalidOption : Bool
  mode : String
  alignmentFormat : String
  numBestSeqs : Int
  kArg : Int
  numRepeats : Int
  findAlignment : Bool
  findStartLocations : Bool
deriving DecidableEq, Repr

/-- Mode string resolution (aligner.cpp lines 119-129). -/
def parseModeCode (mode : String) : Option EdlibAlignMode :=
  if mode = "SHW" then some EdlibAlignMode.EDLIB_MODE_SHW
  else if mode = "HW" then some EdlibAlignMode.EDLIB_MODE_HW
  else if mode = "NW" then some EdlibAlignMode.EDLIB_MODE_NW
  else none

/-- Render format validation (aligner.cpp lines 113-117). -/
def validFormat (f : String) : Bool :=
  f == "NICE" || f == "CIG_STD" || f == "CIG_EXT"

/-- CLI validation stage of main (aligner.cpp lines 76-134): usage check
(exactly one positional argument and no invalid option), then format check,
then mode check; on success the driver configuration, with the task derived
from the -p and -l flags (path overrides locations overrides distance). -/
def cliStage (a : CliArgs) : Option Config :=
  if a.positionalCount ≠ 1 ∨ a.invalidOption then none
  else if !(validFormat a.alignmentFormat) then none
  else
    match parseModeCode a.mode with
    | none => none
    | some m =>
      some { k := a.kArg, modeCode := m,
             alignTask :=
               if a.findAlignment then EdlibAlignTask.EDLIB_TASK_PATH
               else if a.findStartLocations then EdlibAlignTask.EDLIB_TASK_LOC
               else EdlibAlignTask.EDLIB_TASK_DISTANCE,
             numBestSeqs := a.numBestSeqs, numRepeats := a.numRepeats }

/-- Outcome of a run of main: a clean exit with a code and the engine-facing
event trace, or undefined behavior. -/
inductive ProgOutcome where
  | exitWith (code : Int) (events : List Event)
  | undefinedBehavior
deriving DecidableEq, Repr

/-- Model of main (aligner.cpp lines 42-172). The file argument is the content
of the positional input file, or none when it cannot be opened. fopen's result
is stored at line 140 and passed to read_input at line 153 with no null check,
and getline on a null stream is undefined behavior, modelled as the
undefinedBehavior outcome. -/
def mainModel (a : CliArgs) (fileContents : Option (List Char)) : ProgOutcome :=
  match cliStage a with
  | none => ProgOutcome.exitWith 1 []
  | some cfg =>
    match fileContents with
    | none => ProgOutcome.undefinedBehavior
    | some s => ProgOutcome.exitWith 0 (driverRun cfg s)

/-- Symbol of a sequence buffer at a signed index, modelling the C array read
target[i]. Reads outside the buffer are undefined behavior in C; the model
returns a placeholder byte there. -/
def charAt (s : List Char) (i : Int) : Char :=
  if i < 0 then '?' else s.getD i.toNat '?'

/-- HW-mode precomputation of the target start cursor (aligner.cpp lines
220-225): starting from the end position, one full pass over the edit script
decrements the cursor for every operation that is not an insertion. -/
def hwOffset (position : Int) (alignment : List EdOp) : Int :=
  alignment.foldl
    (fun tIdx op => if op ≠ EdOp.EDLIB_EDOP_INSERT then tIdx - 1 else tIdx) position

/-- Number of operations of an edit script different from the given one, as an
integer. -/
def countNon (skip : EdOp) (ops : List EdOp) : Int :=
  (ops.countP (fun op => !(op == skip)) : Nat)

/-- Rendering of one sequence line of a window (aligner.cpp lines 230-236 for
the target, 249-255 for the query): a dash for the skipped operation (INSERT on
the target line, DELETE on the query line), otherwise the symbol at the
pre-incremented cursor; returns the line and the final cursor. -/
def renderLine (symbols : List Char) (skip : EdOp) (idx : Int) : List EdOp → List Char × Int
  | [] => ([], idx)
  | op :: rest =>
    if op = skip then
      let r := renderLine symbols skip idx rest
      ('-' :: r.1, r.2)
    else
      let r := renderLine symbols skip (idx + 1) rest
      (charAt symbols (idx + 1) :: r.1, r.2)

/-- Cursor value recorded for the first operation of a window (the assignments
startTIdx = tIdx and startQIdx = qIdx at j == start, aligner.cpp lines 236 and
254): the cursor after the first operation; on an empty window the initial
value (-1 for the target line, the running query cursor for the query line). -/
def windowStartIdx (skip : EdOp) (init idx : Int) : List EdOp → Int
  | [] => init
  | op :: _ => if op = skip then idx else idx + 1

/-- One rendered window of the alignment display: the three printed lines and
the two printed inclusive coordinate ranges. -/
structure Block where
  targetLine : List Char
  targetRange : Int × Int
  markerLine : List Char
  queryLine : List Char
  queryRange : Int × Int
deriving DecidableEq, Repr, Inhabited

/-- Rendering of one window of at most 50 operations (one iteration of the
outer loop of printAlignment, aligner.cpp lines 226-257): the target line with
its clamped range, the marker line with a bar exactly on matches, the query
line with its clamped range; also returns the target and query cursors left for
the next window. -/
def renderBlock1 (query target : List Char) (tIdx qIdx : Int) (w : List EdOp) :
    Block × Int × Int :=
  let t := renderLine target EdOp.EDLIB_EDOP_INSERT tIdx w
  let q := renderLine query EdOp.EDLIB_EDOP_DELETE qIdx w
  ({ targetLine := t.1,
     targetRange := (max (windowStartIdx EdOp.EDLIB_EDOP_INSERT (-1) tIdx w) 0, t.2),
     markerLine := w.map (fun op => if op = EdOp.EDLIB_EDOP_MATCH then '|' else ' '),
     queryLine := q.1,
     queryRange := (max (windowStartIdx EdOp.EDLIB_EDOP_DELETE qIdx qIdx w) 0, q.2) },
   t.2, q.2)

/-- Fueled splitting of the edit script into the windows of 50 operations the
outer loop of printAlignment visits; fuel equal to the script length is enough
since every window takes at least one operation. -/
def chunks50Go : Nat → List EdOp → List (List EdOp)
  | 0, _ => []
  | _, [] => []
  | Nat.succ fuel, l => l.take 50 :: chunks50Go fuel (l.drop 50)

/-- Windows of 50 operations of an edit script (the final one may be shorter). -/
def chunks50 (l : List EdOp) : List (List EdOp) :=
  chunks50Go l.length l

/-- Rendering of a list of windows, threading the two running cursors. -/
def renderChunks (query target : List Char) : List (List EdOp) → Int → Int → List Block
  | [], _, _ => []
  | w :: ws, tIdx, qIdx =>
    let r := renderBlock1 query target tIdx qIdx w
    r.1 :: renderChunks query target ws r.2.1 r.2.2

/-- Initial target cursor of printAlignment (aligner.cpp lines 218-225): -1,
replaced in HW mode by the precomputed start offset. -/
def tInit (position : Int) (alignment : List EdOp) (modeCode : EdlibAlignMode) : Int :=
  if modeCode = EdlibAlignMode.EDLIB_MODE_HW then hwOffset position alignment else -1

/-- printAlignment (aligner.cpp lines 216-258) as the list of rendered windows:
the edit script is processed in windows of 50 operations starting from the
mode-dependent target cursor and query cursor -1. -/
def printAlignment (query target : List Char) (alignment : List EdOp) (position : Int)
    (modeCode : EdlibAlignMode) : List Block :=
  renderChunks query target (chunks50 alignment) (tInit position alignment modeCode) (-1)

theorem countNon_nil (skip : EdOp) : countNon skip [] = 0 := rfl

theorem countNon_cons (skip op : EdOp) (ops : List EdOp) :
    countNon skip (op :: ops) = countNon skip ops + (if op = skip then 0 else 1) := by
  unfold countNon
  rw [List.countP_cons]
  by_cases h : op = skip <;> simp [h]

theorem countNon_append (skip : EdOp) (a b : List EdOp) :
    countNon skip (a ++ b) = countNon skip a + countNon skip b := by
  unfold countNon
  rw [List.countP_append]
  push_cast
  ring

theorem countNon_nonneg (skip : EdOp) (ops : List EdOp) : 0 ≤ countNon skip ops := by
  unfold countNon
  positivity

theorem repeatRun_countP_align (cfg : Config) (q t : List Char) :
    ∀ n : Nat, (repeatRun cfg q t n).countP isAlign = n := by
  intro n
  induction n with
  | zero => rfl
  | succ m ih => simp [repeatRun, List.countP_cons, isAlign, ih]

theorem repeatRun_countP_free (cfg : Config) (q t : List Char) :
    ∀ n : Nat, (repeatRun cfg q t n).countP isFree = n := by
  intro n
  induction n with
  | zero => rfl
  | succ m ih => simp [repeatRun, List.countP_cons, isFree, ih]

theorem alignsReleased_repeatRun (cfg : Config) (q t : List Char) :
    ∀ n : Nat, alignsReleased (repeatRun cfg q t n) = true := by
  intro n
  induction n with
  | zero => rfl
  | succ m ih => simp [repeatRun, alignsReleased, ih]

theorem mem_repeatRun_align (cfg : Config) (q t : List Char) :
    ∀ (n : Nat) (e : Event), e ∈ repeatRun cfg q t n → isAlign e = true →
      e = Event.align (q.drop 1) (t.drop 1) cfg.k cfg.modeCode cfg.alignTask := by
  intro n
  induction n with
  | zero => intro e he; simp [repeatRun] at he
  | succ m ih =>
    intro e he ha
    simp only [repeatRun, List.mem_cons] at he
    rcases he with rfl | he
    · rfl
    rcases he with rfl | he
    · simp [isAlign] at ha
    · exact ih e he ha

theorem repeatRun_all_payload (cfg : Config) (q t : List Char) :
    ∀ n : Nat,
      (repeatRun cfg q t n).all
        (fun e => !(isAlign e) ||
          decide (e = Event.align (q.drop 1) (t.drop 1) cfg.k cfg.modeCode cfg.alignTask)) = true := by
  intro n
  induction n with
  | zero => rfl
  | succ m ih => simp_all [repeatRun, isAlign]

theorem repeatRun_countP_report (cfg : Config) (q t : List Char) :
    ∀ n : Nat, (repeatRun cfg q t n).countP isReport = 0 := by
  intro n
  induction n with
  | zero => rfl
  | succ m ih => simp [repeatRun, List.countP_cons, isReport, ih]

theorem flatMap_countP_report (cfg : Config) :
    ∀ pairs : List (List Char × List Char),
      (pairs.flatMap (fun p => runPair cfg p.1 p.2)).countP isReport = 0 := by
  intro pairs
  induction pairs with
  | nil => rfl
  | cons p rest ih =>
    simp only [runPair] at ih
    simp only [List.flatMap_cons, List.countP_append, runPair,
      repeatRun_countP_report, ih, Nat.add_zero]

theorem driverRun_report_count (cfg : Config) (stream : List Char) :
    (driverRun cfg stream).countP isReport = 1 := by
  unfold driverRun
  rw [List.countP_append, flatMap_countP_report]
  rfl

theorem driverRun_last (cfg : Config) (stream : List Char) :
    (driverRun cfg stream).getLast? = some Event.timingReport := by
  unfold driverRun
  rw [List.getLast?_concat]

/-- C3: for every sequence pair read, the driver invokes the alignment engine
exactly numRepeats times, always with the identical request whose buffers are
the raw lines with the first byte stripped, releases every result immediately
inside the repetition loop, and the whole run prints exactly one timing report,
at the very end, after all pairs and all repeats. -/
theorem c3_repeat_loop (cfg : Config) (stream : List Char) (q t : List Char)
    (hrep : 1 ≤ cfg.numRepeats) :
    ((runPair cfg q t).countP isAlign : Int) = cfg.numRepeats
    ∧ (runPair cfg q t).countP isFree = (runPair cfg q t).countP isAlign
    ∧ alignsReleased (runPair cfg q t) = true
    ∧ (runPair cfg q t).all
        (fun e => !(isAlign e) ||
          decide (e = Event.align (q.drop 1) (t.drop 1) cfg.k cfg.modeCode cfg.alignTask)) = true
    ∧ (driverRun cfg stream).countP isReport = 1
    ∧ (driverRun cfg stream).getLast? = some Event.timingReport := by
  refine ⟨?_, ?_, ?_, ?_, ?_, ?_⟩
  · rw [runPair, repeatRun_countP_align]
    exact Int.toNat_of_nonneg (le_trans (by norm_num) hrep)
  · rw [runPair, repeatRun_countP_align, repeatRun_countP_free]
  · exact alignsReleased_repeatRun cfg q t _
  · exact repeatRun_all_payload cfg q t _
  · exact driverRun_report_count cfg stream
  · exact driverRun_last cfg stream

/-- Witness for C3, instantiating the repeat loop at the -r 5 scenario of the
specification: five engine invocations for a single pair. -/
theorem c3_repeat_loop_witness :
    ((runPair { k := -1, modeCode := EdlibAlignMode.EDLIB_MODE_NW,
                alignTask := EdlibAlignTask.EDLIB_TASK_DISTANCE,
                numBestSeqs := 0, numRepeats := 5 }
        ['q', 'A', '\n'] ['t', 'C', '\n']).countP isAlign : Int) = 5 :=
  (c3_repeat_loop _ (linesToStream [['q', 'A'], ['t', 'C']]) _ _ (by decide)).1

theorem drop_one_getLast (l : List Char) (hl : l.getLast? = some '\n')
    (h2 : 2 ≤ l.length) : (l.drop 1).getLast? = some '\n' := by
  match l, h2 with
  | a :: b :: rest, _ =>
    rw [List.getLast?_cons_cons] at hl
    simpa using hl

/-- C10: the engine-visible buffers keep the trailing line terminator: only the
leading metadata byte of each raw line is stripped, the passed lengths are the
line lengths minus one, so a query or target line that ends with a newline
yields an engine-visible buffer that still ends with that newline byte. -/
theorem c10_trailing_newline (cfg : Config) (q t : List Char) (e : Event)
    (he : e ∈ runPair cfg q t) (ha : isAlign e = true)
    (hq : q.getLast? = some '\n') (hlq : 2 ≤ q.length)
    (ht : t.getLast? = some '\n') (hlt : 2 ≤ t.length) :
    alignQueryBuf e = some (q.drop 1)
    ∧ alignTargetBuf e = some (t.drop 1)
    ∧ (q.drop 1).length = q.length - 1
    ∧ (t.drop 1).length = t.length - 1
    ∧ (q.drop 1).getLast? = some '\n'
    ∧ (t.drop 1).getLast? = some '\n' := by
  have hpayload := mem_repeatRun_align cfg q t cfg.numRepeats.toNat e he ha
  subst hpayload
  exact ⟨rfl, rfl, by simp, by simp, drop_one_getLast q hq hlq, drop_one_getLast t ht hlt⟩

/-- Witness for C10 at concrete three-byte lines whose last bytes are newlines. -/
theorem c10_trailing_newline_witness :
    alignQueryBuf (Event.align ['A', '\n'] ['C', '\n'] (-1) EdlibAlignMode.EDLIB_MODE_NW
        EdlibAlignTask.EDLIB_TASK_DISTANCE) = some (['q', 'A', '\n'].drop 1)
    ∧ alignTargetBuf (Event.align ['A', '\n'] ['C', '\n'] (-1) EdlibAlignMode.EDLIB_MODE_NW
        EdlibAlignTask.EDLIB_TASK_DISTANCE) = some (['t', 'C', '\n'].drop 1)
    ∧ (['q', 'A', '\n'].drop 1).length = ['q', 'A', '\n'].length - 1
    ∧ (['t', 'C', '\n'].drop 1).length = ['t', 'C', '\n'].length - 1
    ∧ (['q', 'A', '\n'].drop 1).getLast? = some '\n'
    ∧ (['t', 'C', '\n'].drop 1).getLast? = some '\n' :=
  c10_trailing_newline
    { k := -1, modeCode := EdlibAlignMode.EDLIB_MODE_NW,
      alignTask := EdlibAlignTask.EDLIB_TASK_DISTANCE, numBestSeqs := 0, numRepeats := 1 }
    ['q', 'A', '\n'] ['t', 'C', '\n'] _ (by decide) (by decide) (by decide) (by decide)
    (by decide) (by decide)

theorem repeatRun_numBestSeqs_irrelevant (cfg : Config) (n : Int) (q t : List Char) :
    ∀ m : Nat, repeatRun { cfg with numBestSeqs := n } q t m = repeatRun cfg q t m := by
  intro m
  induction m with
  | zero => rfl
  | succ k ih => simp [repeatRun, ih]

/-- C9: the -n value is parsed into numBestSeqs but never read by the main
loop: the trace of engine invocations is the same for every value of
numBestSeqs, and with -n 1 on a two-pair input the engine is still invoked for
both pairs rather than only for the best-scoring one. -/
theorem c9_numBestSeqs_unused :
    (∀ (cfg : Config) (s : List Char) (n : Int),
        driverRun { cfg with numBestSeqs := n } s = driverRun cfg s)
    ∧ (driverRun { k := -1, modeCode := EdlibAlignMode.EDLIB_MODE_NW,
                   alignTask := EdlibAlignTask.EDLIB_TASK_DISTANCE,
                   numBestSeqs := 1, numRepeats := 1 }
         (linesToStream [['q', 'A'], ['t', 'C'], ['q', 'G'], ['t', 'T']])).countP isAlign = 2 := by
  constructor
  · intro cfg s n
    unfold driverRun runPair
    simp [repeatRun_numBestSeqs_irrelevant]
  · decide

/-- C2: with valid command-line arguments and an input file that cannot be
opened, main stores the null result of fopen and passes it to read_input, whose
getline call on a null stream is undefined behavior: the run does not end in a
fatal error with a non-zero exit code. -/
theorem c2_unchecked_fopen :
    mainModel { positionalCount := 1, invalidOption := false, mode := "NW",
                alignmentFormat := "NICE", numBestSeqs := 0, kArg := -1, numRepeats := 1,
                findAlignment := false, findStartLocations := false } none
      = ProgOutcome.undefinedBehavior := by
  decide

theorem cliStage_none (a : CliArgs)
    (h : a.positionalCount ≠ 1 ∨ a.invalidOption = true ∨
         validFormat a.alignmentFormat = false ∨ parseModeCode a.mode = none) :
    cliStage a = none := by
  unfold cliStage
  rcases h with h | h | h | h
  · rw [if_pos (Or.inl h)]
  · rw [if_pos (Or.inr (by simp [h]))]
  · by_cases h1 : a.positionalCount ≠ 1 ∨ a.invalidOption
    · rw [if_pos h1]
    · rw [if_neg h1, if_pos (by simp [h])]
  · by_cases h1 : a.positionalCount ≠ 1 ∨ a.invalidOption
    · rw [if_pos h1]
    · rw [if_neg h1]
      by_cases h2 : !(validFormat a.alignmentFormat)
      · rw [if_pos h2]
      · rw [if_neg h2, h]

/-- C8 counterexample: a command line with two positional path arguments and
otherwise valid flags fails the usage check (optind + 1 != argc) and exits with
code 1 before any computation; the second positional argument is not accepted. -/
theorem c8_counterexample :
    mainModel { positionalCount := 2, invalidOption := false, mode := "NW",
                alignmentFormat := "NICE", numBestSeqs := 0, kArg := -1, numRepeats := 1,
                findAlignment := false, findStartLocations := false } (some [])
      = ProgOutcome.exitWith 1 [] := by
  decide

theorem cliStage_some (a : CliArgs) (m : EdlibAlignMode)
    (h1 : a.positionalCount = 1) (h2 : a.invalidOption = false)
    (h3 : validFormat a.alignmentFormat = true)
    (h4 : parseModeCode a.mode = some m) :
    cliStage a
      = some { k := a.kArg, modeCode := m,
               alignTask :=
                 if a.findAlignment then EdlibAlignTask.EDLIB_TASK_PATH
                 else if a.findStartLocations then EdlibAlignTask.EDLIB_TASK_LOC
                 else EdlibAlignTask.EDLIB_TASK_DISTANCE,
               numBestSeqs := a.numBestSeqs, numRepeats := a.numRepeats } := by
  unfold cliStage
  rw [if_neg (by simp [h1, h2]), if_neg (by simp [h3]), h4]

/-- C8 (amended): the program exits with code 1, before any computation,
exactly when the command line is wrong: a usage error (invalid option), a
positional argument count different from one, an invalid -m mode string, or an
invalid -f render format string; in particular a second positional path
argument fails the usage check and is rejected with exit code 1, not
accepted. -/
theorem c8_exit1 (a : CliArgs) (fileContents : Option (List Char)) :
    mainModel a fileContents = ProgOutcome.exitWith 1 []
      ↔ (a.positionalCount ≠ 1 ∨ a.invalidOption = true ∨
          validFormat a.alignmentFormat = false ∨ parseModeCode a.mode = none) := by
  constructor
  · intro heq
    by_contra hnc
    push_neg at hnc
    obtain ⟨h1, h2, h3, h4⟩ := hnc
    obtain ⟨m, hm⟩ := Option.ne_none_iff_exists.mp h4
    unfold mainModel at heq
    rw [cliStage_some a m h1 (by simpa using h2) (by simpa using h3) hm.symm] at heq
    cases fileContents with
    | none => simp at heq
    | some s => simp at heq
  · intro h
    unfold mainModel
    rw [cliStage_none a h]

/-- Witness for C8 at a concrete invalid mode string. -/
theorem c8_exit1_witness :
    mainModel { positionalCount := 1, invalidOption := false, mode := "XX",
                alignmentFormat := "NICE", numBestSeqs := 0, kArg := -1, numRepeats := 1,
                findAlignment := false, findStartLocations := false } none
      = ProgOutcome.exitWith 1 [] :=
  (c8_exit1 _ _).mpr (by decide)

theorem hwOffset_eq (position : Int) (al : List EdOp) :
    hwOffset position al = position - countNon EdOp.EDLIB_EDOP_INSERT al := by
  induction al generalizing position with
  | nil => simp [hwOffset, countNon]
  | cons op rest ih =>
    rw [countNon_cons]
    unfold hwOffset at ih ⊢
    rw [List.foldl_cons, ih]
    by_cases h : op = EdOp.EDLIB_EDOP_INSERT
    · simp [h]
    · simp [h]
      ring

theorem renderChunks_range_clamped (query target : List Char) :
    ∀ (ws : List (List EdOp)) (tIdx qIdx : Int) (b : Block),
      b ∈ renderChunks query target ws tIdx qIdx →
      0 ≤ b.targetRange.1 ∧ 0 ≤ b.queryRange.1 := by
  intro ws
  induction ws with
  | nil => intro tIdx qIdx b hb; simp [renderChunks] at hb
  | cons w rest ih =>
    intro tIdx qIdx b hb
    simp only [renderChunks, List.mem_cons] at hb
    rcases hb with rfl | hb
    · exact ⟨le_max_right _ _, le_max_right _ _⟩
    · exact ih _ _ b hb

/-- C4: in HW mode the renderer pre-computes the target start cursor in one
full pass over the edit script, the computed value is the anchor position minus
the number of non-INSERT operations, and the lower bound of every printed
target coordinate range is clamped to be non-negative. -/
theorem c4_hw_offset (query target : List Char) (al : List EdOp) (position : Int)
    (b : Block)
    (hb : b ∈ printAlignment query target al position EdlibAlignMode.EDLIB_MODE_HW) :
    hwOffset position al = position - countNon EdOp.EDLIB_EDOP_INSERT al
    ∧ 0 ≤ b.targetRange.1 := by
  refine ⟨hwOffset_eq position al, ?_⟩
  exact (renderChunks_range_clamped query target _ _ _ b hb).1

/-- Witness for C4 at a one-operation edit script in HW mode. -/
theorem c4_hw_offset_witness :
    hwOffset 1 [EdOp.EDLIB_EDOP_MATCH] = 1 - countNon EdOp.EDLIB_EDOP_INSERT [EdOp.EDLIB_EDOP_MATCH]
    ∧ 0 ≤ ((printAlignment ['A'] ['A'] [EdOp.EDLIB_EDOP_MATCH] 1
          EdlibAlignMode.EDLIB_MODE_HW).getD 0 default).targetRange.1 :=
  c4_hw_offset ['A'] ['A'] [EdOp.EDLIB_EDOP_MATCH] 1 _ (by decide)

theorem getline_eq_none (s : List Char) : getline s = none ↔ s = [] := by
  cases s with
  | nil => simp [getline]
  | cons c rest =>
    simp only [getline]
    constructor
    · intro h
      by_cases hc : c = '\n'
      · rw [if_pos hc] at h; exact absurd h (by simp)
      · rw [if_neg hc] at h
        cases hg : getline rest with
        | none => rw [hg] at h; exact absurd h (by simp)
        | some p => rw [hg] at h; exact absurd h (by simp)
    · intro h; exact absurd h (by simp)

theorem getline_sound :
    ∀ (s l r : List Char), getline s = some (l, r) → s = l ++ r ∧ l ≠ [] := by
  intro s
  induction s with
  | nil => intro l r h; simp [getline] at h
  | cons c rest ih =>
    intro l r h
    simp only [getline] at h
    by_cases hc : c = '\n'
    · rw [if_pos hc] at h
      obtain ⟨rfl, rfl⟩ : [c] = l ∧ rest = r := by
        constructor <;> [exact congrArg Prod.fst (Option.some.inj h);
          exact congrArg Prod.snd (Option.some.inj h)]
      exact ⟨rfl, by simp⟩
    · rw [if_neg hc] at h
      cases hg : getline rest with
      | none =>
        rw [hg] at h
        obtain ⟨rfl, rfl⟩ : [c] = l ∧ ([] : List Char) = r := by
          constructor <;> [exact congrArg Prod.fst (Option.some.inj h);
            exact congrArg Prod.snd (Option.some.inj h)]
        have := (getline_eq_none rest).mp hg
        subst this
        exact ⟨by simp, by simp⟩
      | some p =>
        rw [hg] at h
        obtain ⟨rfl, rfl⟩ : c :: p.1 = l ∧ p.2 = r := by
          constructor <;> [exact congrArg Prod.fst (Option.some.inj h);
            exact congrArg Prod.snd (Option.some.inj h)]
        obtain ⟨h1, h2⟩ := ih p.1 p.2 (by rw [hg])
        exact ⟨by rw [List.cons_append, ← h1], by simp⟩

theorem getline_newline :
    ∀ (l rest : List Char), '\n' ∉ l → getline (l ++ '\n' :: rest) = some (l ++ ['\n'], rest) := by
  intro l
  induction l with
  | nil => intro rest h; simp [getline]
  | cons c cs ih =>
    intro rest h
    have hc : c ≠ '\n' := fun hc => h (by simp [hc])
    have hcs : '\n' ∉ cs := fun hm => h (by simp [hm])
    simp only [List.cons_append, getline, if_neg hc, List.append_eq]
    rw [ih rest hcs]

theorem read_input_shrinks (s : List Char) (p : List Char × List Char) (s1 : List Char)
    (h : read_input s = some (p, s1)) : s1.length < s.length := by
  unfold read_input at h
  cases hg1 : getline s with
  | none => simp [hg1] at h
  | some q1 =>
    obtain ⟨l1, r1⟩ := q1
    simp only [hg1] at h
    cases hg2 : getline r1 with
    | none => simp [hg2] at h
    | some q2 =>
      obtain ⟨l2, r2⟩ := q2
      simp only [hg2] at h
      simp only [Option.some.injEq, Prod.mk.injEq] at h
      obtain ⟨-, rfl⟩ := h
      obtain ⟨he1, hne1⟩ := getline_sound s l1 r1 hg1
      obtain ⟨he2, hne2⟩ := getline_sound r1 l2 r2 hg2
      rw [he1, he2]
      simp only [List.length_append]
      have hl1 : 0 < l1.length := List.length_pos.mpr hne1
      have hl2 : 0 < l2.length := List.length_pos.mpr hne2
      omega

theorem readPairsFuel_congr :
    ∀ (f1 f2 : Nat) (s : List Char), s.length ≤ f1 → s.length ≤ f2 →
      readPairsFuel f1 s = readPairsFuel f2 s := by
  intro f1
  induction f1 with
  | zero =>
    intro f2 s h1 h2
    have hs : s = [] := List.length_eq_zero.mp (Nat.le_zero.mp h1)
    subst hs
    have hr : read_input [] = none := rfl
    cases f2 with
    | zero => rfl
    | succ g2 => simp [readPairsFuel, hr]
  | succ g1 ih =>
    intro f2 s h1 h2
    cases hs : s with
    | nil =>
      have hr : read_input [] = none := rfl
      cases f2 with
      | zero => rfl
      | succ g2 => simp [readPairsFuel, hr]
    | cons c rest =>
      subst hs
      cases f2 with
      | zero => simp at h2
      | succ g2 =>
        simp only [readPairsFuel]
        cases hr : read_input (c :: rest) with
        | none => rfl
        | some pr =>
          obtain ⟨p, s1⟩ := pr
          have hlt := read_input_shrinks (c :: rest) p s1 hr
          simp only [List.length_cons] at h1 h2 hlt
          simp only [hr]
          rw [ih g2 s1 (by omega) (by omega)]

theorem readPairs_none (s : List Char) (h : read_input s = none) : readPairs s = [] := by
  unfold readPairs
  cases s with
  | nil => rfl
  | cons c rest => simp [readPairsFuel, h]

theorem readPairs_cons (s : List Char) (p : List Char × List Char) (s1 : List Char)
    (h : read_input s = some (p, s1)) : readPairs s = p :: readPairs s1 := by
  unfold readPairs
  cases s with
  | nil =>
    have : read_input [] = none := rfl
    rw [this] at h
    exact absurd h (by simp)
  | cons c rest =>
    have hlt := read_input_shrinks (c :: rest) p s1 h
    simp only [List.length_cons, readPairsFuel, h]
    rw [readPairsFuel_congr rest.length s1.length s1 (by simp at hlt; omega) le_rfl]

theorem linesToStream_cons (a : List Char) (ls : List (List Char)) :
    linesToStream (a :: ls) = a ++ '\n' :: linesToStream ls := by
  simp [linesToStream]

theorem read_input_twoLines (a b : List Char) (rest : List Char)
    (ha : '\n' ∉ a) (hb : '\n' ∉ b) :
    read_input (a ++ '\n' :: (b ++ '\n' :: rest)) = some ((a ++ ['\n'], b ++ ['\n']), rest) := by
  unfold read_input
  rw [getline_newline a _ ha]
  simp only
  rw [getline_newline b rest hb]

theorem readPairs_linesToStream :
    ∀ ls : List (List Char), (∀ l ∈ ls, '\n' ∉ l) →
      readPairs (linesToStream ls) = pairUp (ls.map (fun l => l ++ ['\n']))
  | [], h => by
    simp [linesToStream, pairUp, readPairs, readPairsFuel]
  | [a], h => by
    rw [linesToStream_cons]
    have hend : read_input (a ++ '\n' :: linesToStream []) = none := by
      unfold read_input
      rw [getline_newline a _ (h a (by simp))]
      simp only [linesToStream, List.map_nil, List.flatten_nil]
      rfl
    rw [readPairs_none _ hend]
    simp [pairUp]
  | a :: b :: rest, h => by
    rw [linesToStream_cons, linesToStream_cons]
    rw [readPairs_cons _ _ _
      (read_input_twoLines a b (linesToStream rest) (h a (by simp)) (h b (by simp)))]
    rw [readPairs_linesToStream rest (fun l hl => h l (by simp [hl]))]
    simp [pairUp]

theorem pairUp_length {α : Type} :
    ∀ xs : List α, (pairUp xs).length = xs.length / 2
  | [] => by simp [pairUp]
  | [a] => by simp [pairUp]
  | a :: b :: rest => by
    simp only [pairUp, List.length_cons, pairUp_length rest]
    omega

/-- C6: a stream of N well-formed line pairs yields exactly those N pairs, in
order (so with an odd number of lines the last incomplete pair is never
returned, since consecutive pairing drops the odd trailing line), and end of
stream during either of read_input's two getline calls is reported as the same
end-of-input result, not as a distinct error. -/
theorem c6_paired_reader (ls : List (List Char)) (hnl : ∀ l ∈ ls, '\n' ∉ l) :
    readPairs (linesToStream ls) = pairUp (ls.map (fun l => l ++ ['\n']))
    ∧ (readPairs (linesToStream ls)).length = ls.length / 2
    ∧ (∀ s : List Char, getline s = none → read_input s = none)
    ∧ (∀ (s l s1 : List Char), getline s = some (l, s1) → getline s1 = none →
        read_input s = none) := by
  refine ⟨readPairs_linesToStream ls hnl, ?_, ?_, ?_⟩
  · rw [readPairs_linesToStream ls hnl, pairUp_length, List.length_map]
  · intro s h
    unfold read_input
    rw [h]
  · intro s l s1 h1 h2
    unfold read_input
    rw [h1]
    simp only
    rw [h2]

/-- Witness for C6 at a three-line stream: one pair is returned and the odd
trailing line is dropped. -/
theorem c6_paired_reader_witness :
    readPairs (linesToStream [['q', 'A'], ['t', 'C'], ['x']])
      = pairUp ([['q', 'A'], ['t', 'C'], ['x']].map (fun l => l ++ ['\n'])) :=
  (c6_paired_reader [['q', 'A'], ['t', 'C'], ['x']] (by decide)).1

theorem pushLast_forall {P : Char → Prop} :
    ∀ (seqs : List (List Char)) (x : Char),
      (∀ r ∈ seqs, ∀ c ∈ r, P c) → P x → ∀ r ∈ pushLast seqs x, ∀ c ∈ r, P c
  | [], x, hall, hx => by simp [pushLast]
  | [r0], x, hall, hx => by
    simp only [pushLast, List.mem_singleton]
    rintro r rfl c hc
    rcases List.mem_append.mp hc with h | h
    · exact hall r0 (by simp) c h
    · rw [List.mem_singleton.mp h]; exact hx
  | r0 :: r1 :: rest, x, hall, hx => by
    simp only [pushLast, List.mem_cons]
    rintro r (rfl | hr)
    · exact hall r (by simp)
    · exact pushLast_forall (r1 :: rest) x
        (fun r2 h2 => hall r2 (List.mem_cons_of_mem r0 h2)) hx r hr

theorem fastaStep_forall {P : Char → Prop} (s : FastaState) (c : Char)
    (hall : ∀ r ∈ s.seqs, ∀ c0 ∈ r, P c0)
    (hP : ¬(c = '\n' ∨ c = '\r' ∨ c = '>') → P c) :
    ∀ r ∈ (fastaStep s c).seqs, ∀ c0 ∈ r, P c0 := by
  unfold fastaStep
  split_ifs with h1 h2 h3 h4 h5
  · exact hall
  · exact hall
  · exact hall
  · exact hall
  · simp only
    intro r hr
    rcases List.mem_append.mp hr with h | h
    · exact hall r h
    · rw [List.mem_singleton.mp h]
      intro c0 hc0
      rw [List.mem_singleton.mp hc0]
      exact hP (by rintro (h | h | h) <;> simp_all)
  · exact pushLast_forall s.seqs c hall (hP (by rintro (h | h | h) <;> simp_all))

theorem readFastaSequences_mem (input : List Char) :
    ∀ r ∈ readFastaSequences input, ∀ c ∈ r, ¬(c = '\n' ∨ c = '\r' ∨ c = '>') := by
  unfold readFastaSequences
  have main : ∀ (inp : List Char) (s : FastaState),
      (∀ r ∈ s.seqs, ∀ c0 ∈ r, ¬(c0 = '\n' ∨ c0 = '\r' ∨ c0 = '>')) →
      ∀ r ∈ (inp.foldl fastaStep s).seqs, ∀ c0 ∈ r, ¬(c0 = '\n' ∨ c0 = '\r' ∨ c0 = '>') := by
    intro inp
    induction inp with
    | nil => intro s hs; exact hs
    | cons c rest ih =>
      intro s hs
      rw [List.foldl_cons]
      exact ih (fastaStep s c) (fastaStep_forall s c hs (fun h => h))
  exact main input { inHeader := false, inSequence := false, seqs := [] } (by simp)

theorem flatten_pushLast :
    ∀ (seqs : List (List Char)) (x : Char), seqs ≠ [] →
      (pushLast seqs x).flatten = seqs.flatten ++ [x]
  | [], x, h => absurd rfl h
  | [r0], x, h => by simp [pushLast]
  | r0 :: r1 :: rest, x, h => by
    simp only [pushLast, List.flatten_cons]
    rw [flatten_pushLast (r1 :: rest) x (by simp)]
    simp [List.flatten_cons, List.append_assoc]

theorem fastaStep_flatten_sublist (s : FastaState) (c : Char) (pre : List Char)
    (h : List.Sublist s.seqs.flatten pre) :
    List.Sublist ((fastaStep s c).seqs).flatten (pre ++ [c]) := by
  unfold fastaStep
  split_ifs with h1 h2 h3 h4 h5
  · exact h.trans (List.sublist_append_left pre [c])
  · exact h.trans (List.sublist_append_left pre [c])
  · exact h.trans (List.sublist_append_left pre [c])
  · exact h.trans (List.sublist_append_left pre [c])
  · simp only [List.flatten_append]
    simpa using h.append (List.Sublist.refl [c])
  · by_cases hs : s.seqs = []
    · rw [hs]
      simp only [pushLast, List.flatten_nil]
      exact List.nil_sublist _
    · rw [flatten_pushLast s.seqs c hs]
      exact h.append (List.Sublist.refl [c])

theorem readFastaSequences_sublist (input : List Char) :
    List.Sublist (readFastaSequences input).flatten input := by
  unfold readFastaSequences
  have main : ∀ (inp : List Char) (s : FastaState) (pre : List Char),
      List.Sublist s.seqs.flatten pre →
      List.Sublist ((inp.foldl fastaStep s).seqs).flatten (pre ++ inp) := by
    intro inp
    induction inp with
    | nil => intro s pre h; simpa using h
    | cons c rest ih =>
      intro s pre h
      rw [List.foldl_cons]
      have step := fastaStep_flatten_sublist s c pre h
      have := ih (fastaStep s c) (pre ++ [c]) step
      simpa [List.append_assoc] using this
  simpa using main input { inHeader := false, inSequence := false, seqs := [] } [] (by simp)

theorem fastaStep_newline_seqs (s : FastaState) :
    (fastaStep s '\n').seqs = s.seqs ∧ (fastaStep s '\r').seqs = s.seqs := by
  constructor <;> (unfold fastaStep; split_ifs <;> simp_all)

theorem fasta_header (iseq : Bool) (seqs : List (List Char)) :
    ∀ h : List Char, '\n' ∉ h →
      List.foldl fastaStep { inHeader := true, inSequence := iseq, seqs := seqs } h
        = { inHeader := true, inSequence := iseq, seqs := seqs } := by
  intro h
  induction h with
  | nil => intro _; rfl
  | cons c cs ih =>
    intro hmem
    have hc : c ≠ '\n' := fun hc => hmem (by simp [hc])
    rw [List.foldl_cons]
    have hstep : fastaStep { inHeader := true, inSequence := iseq, seqs := seqs } c
        = { inHeader := true, inSequence := iseq, seqs := seqs } := by
      unfold fastaStep
      simp [hc]
    rw [hstep]
    exact ih (fun hm => hmem (by simp [hm]))

theorem fasta_header_segment (s : FastaState) (h : List Char) (hh : '\n' ∉ h) :
    List.foldl fastaStep s ('>' :: (h ++ ['\n']))
      = { inHeader := false,
          inSequence := if s.inHeader then s.inSequence else false,
          seqs := s.seqs } := by
  obtain ⟨ih, iseq, seqs⟩ := s
  cases ih with
  | false =>
    rw [List.foldl_cons]
    have h1 : fastaStep { inHeader := false, inSequence := iseq, seqs := seqs } '>'
        = { inHeader := true, inSequence := false, seqs := seqs } := by
      unfold fastaStep
      simp
    rw [h1, List.foldl_append, fasta_header false seqs h hh, List.foldl_cons]
    have h2 : fastaStep { inHeader := true, inSequence := false, seqs := seqs } '\n'
        = { inHeader := false, inSequence := false, seqs := seqs } := by
      unfold fastaStep
      simp
    rw [h2]
    rfl
  | true =>
    rw [List.foldl_cons]
    have h1 : fastaStep { inHeader := true, inSequence := iseq, seqs := seqs } '>'
        = { inHeader := true, inSequence := iseq, seqs := seqs } := by
      unfold fastaStep
      simp
    rw [h1, List.foldl_append, fasta_header iseq seqs h hh, List.foldl_cons]
    have h2 : fastaStep { inHeader := true, inSequence := iseq, seqs := seqs } '\n'
        = { inHeader := false, inSequence := iseq, seqs := seqs } := by
      unfold fastaStep
      simp
    rw [h2]
    rfl

theorem fasta_header_invariance (pre hA hB post : List Char)
    (hA1 : '\n' ∉ hA) (hB1 : '\n' ∉ hB) :
    readFastaSequences (pre ++ '>' :: hA ++ '\n' :: post)
      = readFastaSequences (pre ++ '>' :: hB ++ '\n' :: post) := by
  unfold readFastaSequences
  have hsplit : ∀ h : List Char, pre ++ '>' :: h ++ '\n' :: post
      = (pre ++ ('>' :: (h ++ ['\n']))) ++ post := by
    intro h
    simp
  rw [hsplit hA, hsplit hB, List.foldl_append, List.foldl_append, List.foldl_append,
    List.foldl_append, fasta_header_segment _ hA hA1, fasta_header_segment _ hB hB1]

/-- C7: every record buffer readFastaSequences produces holds only residue
bytes: no line feed, carriage return or marker byte ever enters a buffer, the
concatenation of all buffers is a subsequence of the input (bytes appear in
file order), line-break bytes never change the accumulated buffers (so
multi-line sequences concatenate transparently), a stream without a trailing
newline parses to the same records as one with it (end of stream terminates
the current record), and header bytes are discarded: replacing the text of any
header line by any other newline-free text, including the empty one, leaves
the parsed records unchanged, so no header byte ever reaches a buffer. -/
theorem c7_residue_only (input : List Char) :
    (∀ r ∈ readFastaSequences input, ∀ c ∈ r, ¬(c = '\n' ∨ c = '\r' ∨ c = '>'))
    ∧ List.Sublist (readFastaSequences input).flatten input
    ∧ readFastaSequences (input ++ ['\n']) = readFastaSequences input
    ∧ (∀ s : FastaState, (fastaStep s '\n').seqs = s.seqs ∧ (fastaStep s '\r').seqs = s.seqs)
    ∧ (∀ pre hA hB post : List Char, '\n' ∉ hA → '\n' ∉ hB →
        readFastaSequences (pre ++ '>' :: hA ++ '\n' :: post)
          = readFastaSequences (pre ++ '>' :: hB ++ '\n' :: post)) := by
  refine ⟨readFastaSequences_mem input, readFastaSequences_sublist input, ?_,
    fastaStep_newline_seqs, fun pre hA hB post hA1 hB1 =>
      fasta_header_invariance pre hA hB post hA1 hB1⟩
  unfold readFastaSequences
  rw [List.foldl_append]
  simp only [List.foldl_cons, List.foldl_nil]
  exact (fastaStep_newline_seqs _).1

/-- Witness for C7 at a one-record stream with no trailing newline. -/
theorem c7_residue_only_witness :
    readFastaSequences (['>', 'h', '\n', 'A', 'C'] ++ ['\n'])
      = readFastaSequences ['>', 'h', '\n', 'A', 'C'] :=
  (c7_residue_only ['>', 'h', '\n', 'A', 'C']).2.2.1

theorem pushLast_append :
    ∀ (pre : List (List Char)) (cur : List Char) (x : Char),
      pushLast (pre ++ [cur]) x = pre ++ [cur ++ [x]]
  | [], cur, x => by simp [pushLast]
  | [p0], cur, x => by simp [pushLast]
  | p0 :: p1 :: pre, cur, x => by
    simp only [List.cons_append, pushLast, List.append_eq]
    rw [← List.cons_append, pushLast_append (p1 :: pre) cur x]
    simp

theorem bodyResidues_skip (c : Char) (rest : List Char) (h : c = '\r' ∨ c = '\n') :
    bodyResidues (c :: rest) = bodyResidues rest := by
  unfold bodyResidues
  rcases h with rfl | rfl <;> simp

theorem bodyResidues_keep (c : Char) (rest : List Char) (h : ¬(c = '\r' ∨ c = '\n')) :
    bodyResidues (c :: rest) = c :: bodyResidues rest := by
  unfold bodyResidues
  push_neg at h
  simp [h.1, h.2]

theorem fasta_body_inseq :
    ∀ (b : List Char) (pre : List (List Char)) (cur : List Char), '>' ∉ b →
      List.foldl fastaStep { inHeader := false, inSequence := true, seqs := pre ++ [cur] } b
        = { inHeader := false, inSequence := true, seqs := pre ++ [cur ++ bodyResidues b] } := by
  intro b
  induction b with
  | nil => intro pre cur h; simp [bodyResidues]
  | cons c rest ih =>
    intro pre cur hmem
    have hc : c ≠ '>' := fun hc => hmem (by simp [hc])
    have hrest : '>' ∉ rest := fun hm => hmem (by simp [hm])
    rw [List.foldl_cons]
    by_cases hbr : c = '\r' ∨ c = '\n'
    · have hstep : fastaStep { inHeader := false, inSequence := true, seqs := pre ++ [cur] } c
          = { inHeader := false, inSequence := true, seqs := pre ++ [cur] } := by
        unfold fastaStep
        simp [hc, hbr]
      rw [hstep, ih pre cur hrest, bodyResidues_skip c rest hbr]
    · have hstep : fastaStep { inHeader := false, inSequence := true, seqs := pre ++ [cur] } c
          = { inHeader := false, inSequence := true, seqs := pre ++ [cur ++ [c]] } := by
        unfold fastaStep
        simp only [if_neg (by simp : ¬(false = true)), if_neg hc, if_neg hbr]
        simp [pushLast_append]
      rw [hstep, ih pre (cur ++ [c]) hrest, bodyResidues_keep c rest hbr]
      simp [List.append_assoc]

theorem fasta_body_start :
    ∀ (b : List Char) (seqs : List (List Char)), '>' ∉ b → bodyResidues b ≠ [] →
      List.foldl fastaStep { inHeader := false, inSequence := false, seqs := seqs } b
        = { inHeader := false, inSequence := true, seqs := seqs ++ [bodyResidues b] } := by
  intro b
  induction b with
  | nil => intro seqs _ hne; exact absurd rfl hne
  | cons c rest ih =>
    intro seqs hmem hne
    have hc : c ≠ '>' := fun hc => hmem (by simp [hc])
    have hrest : '>' ∉ rest := fun hm => hmem (by simp [hm])
    rw [List.foldl_cons]
    by_cases hbr : c = '\r' ∨ c = '\n'
    · have hstep : fastaStep { inHeader := false, inSequence := false, seqs := seqs } c
          = { inHeader := false, inSequence := false, seqs := seqs } := by
        unfold fastaStep
        simp [hc, hbr]
      rw [hstep, ih seqs hrest (by rwa [bodyResidues_skip c rest hbr] at hne),
        bodyResidues_skip c rest hbr]
    · have hstep : fastaStep { inHeader := false, inSequence := false, seqs := seqs } c
          = { inHeader := false, inSequence := true, seqs := seqs ++ [[c]] } := by
        unfold fastaStep
        simp [hc, hbr]
      rw [hstep, fasta_body_inseq rest seqs [c] hrest, bodyResidues_keep c rest hbr]
      simp

theorem fasta_block (h b : List Char) (iseq : Bool) (seqs : List (List Char))
    (hh : '\n' ∉ h) (hb : '>' ∉ b) (hne : bodyResidues b ≠ []) :
    List.foldl fastaStep { inHeader := false, inSequence := iseq, seqs := seqs }
        (renderBlock h b)
      = { inHeader := false, inSequence := true, seqs := seqs ++ [bodyResidues b] } := by
  unfold renderBlock
  rw [List.foldl_append, List.foldl_cons]
  have hgt : fastaStep { inHeader := false, inSequence := iseq, seqs := seqs } '>'
      = { inHeader := true, inSequence := false, seqs := seqs } := by
    unfold fastaStep
    simp
  rw [List.foldl_cons, hgt, fasta_header false seqs h hh]
  have hnl : fastaStep { inHeader := true, inSequence := false, seqs := seqs } '\n'
      = { inHeader := false, inSequence := false, seqs := seqs } := by
    unfold fastaStep
    simp
  rw [hnl, fasta_body_start b seqs hb hne]

theorem fasta_blocks :
    ∀ (blocks : List (List Char × List Char)) (iseq : Bool) (seqs : List (List Char)),
      (∀ p ∈ blocks, wellFormedBlock p) → blocks ≠ [] →
      List.foldl fastaStep { inHeader := false, inSequence := iseq, seqs := seqs }
          (renderFasta blocks)
        = { inHeader := false, inSequence := true,
            seqs := seqs ++ blocks.map (fun p => bodyResidues p.2) }
  | [], _, _, _, hne => absurd rfl hne
  | [p0], iseq, seqs, hwf, _ => by
    obtain ⟨h1, h2, h3, h4⟩ := hwf p0 (by simp)
    simp only [renderFasta, List.map_cons, List.map_nil, List.flatten_cons, List.flatten_nil,
      List.append_nil]
    exact fasta_block p0.1 p0.2 iseq seqs h1 h3 h4
  | p0 :: p1 :: rest, iseq, seqs, hwf, _ => by
    obtain ⟨h1, h2, h3, h4⟩ := hwf p0 (by simp)
    have hsplit : renderFasta (p0 :: p1 :: rest)
        = renderBlock p0.1 p0.2 ++ renderFasta (p1 :: rest) := by
      simp [renderFasta]
    rw [hsplit, List.foldl_append, fasta_block p0.1 p0.2 iseq seqs h1 h3 h4,
      fasta_blocks (p1 :: rest) true (seqs ++ [bodyResidues p0.2])
        (fun p hp => hwf p (List.mem_cons_of_mem p0 hp)) (by simp)]
    simp

theorem countMarkers_append (a b : List Char) :
    countMarkers (a ++ b) = countMarkers a + countMarkers b := by
  unfold countMarkers
  rw [List.countP_append]

theorem countMarkers_block (h b : List Char) (hh : '>' ∉ h) (hb : '>' ∉ b) :
    countMarkers (renderBlock h b) = 1 := by
  unfold countMarkers renderBlock
  simp only [List.countP_append, List.countP_cons]
  have ch : h.countP (fun c => c == '>') = 0 :=
    List.countP_eq_zero.mpr (fun a ha => by simp; rintro rfl; exact hh ha)
  have cb : b.countP (fun c => c == '>') = 0 :=
    List.countP_eq_zero.mpr (fun a ha => by simp; rintro rfl; exact hb ha)
  rw [ch, cb]
  simp

theorem countMarkers_renderFasta :
    ∀ blocks : List (List Char × List Char), (∀ p ∈ blocks, wellFormedBlock p) →
      countMarkers (renderFasta blocks) = blocks.length := by
  intro blocks
  induction blocks with
  | nil => intro _; rfl
  | cons p0 rest ih =>
    intro hwf
    obtain ⟨h1, h2, h3, h4⟩ := hwf p0 (by simp)
    have hsplit : renderFasta (p0 :: rest) = renderBlock p0.1 p0.2 ++ renderFasta rest := by
      simp [renderFasta]
    rw [hsplit, countMarkers_append, countMarkers_block p0.1 p0.2 h2 h3,
      ih (fun p hp => hwf p (List.mem_cons_of_mem p0 hp))]
    simp [Nat.add_comm]

/-- C1 (amended): for streams made of well-formed FASTA blocks (each marker
begins a header line, no stray marker bytes, and every record body holds at
least one residue byte) the parser produces exactly one record per block, so
the number of records equals the number of marker bytes; the records are the
residue bytes of the bodies. In general a marker whose body holds no residue
byte produces no record, so the counts can differ. -/
theorem c1_fasta_records (blocks : List (List Char × List Char))
    (hwf : ∀ p ∈ blocks, wellFormedBlock p) :
    readFastaSequences (renderFasta blocks) = blocks.map (fun p => bodyResidues p.2)
    ∧ (readFastaSequences (renderFasta blocks)).length = countMarkers (renderFasta blocks)
    ∧ countMarkers (renderFasta blocks) = blocks.length := by
  have hmain : readFastaSequences (renderFasta blocks) = blocks.map (fun p => bodyResidues p.2) := by
    cases blocks with
    | nil => rfl
    | cons p0 rest =>
      unfold readFastaSequences
      rw [fasta_blocks (p0 :: rest) false [] hwf (by simp)]
      simp
  refine ⟨hmain, ?_, countMarkers_renderFasta blocks hwf⟩
  rw [hmain, countMarkers_renderFasta blocks hwf, List.length_map]

/-- C1 counterexample: the stream holding the single marker byte has one
marker and zero records, since no residue byte follows the header. -/
theorem c1_counterexample :
    (readFastaSequences ['>']).length ≠ countMarkers ['>'] := by
  decide

/-- Witness for C1 at two concrete well-formed blocks, the second with an
empty header and a body split over two lines. -/
theorem c1_fasta_records_witness :
    readFastaSequences (renderFasta [(['h'], ['A', 'C']), ([], ['G', '\n', 'T'])])
      = [(['h'], ['A', 'C']), (([] : List Char), ['G', '\n', 'T'])].map
          (fun p => bodyResidues p.2) :=
  (c1_fasta_records [(['h'], ['A', 'C']), ([], ['G', '\n', 'T'])] (by decide)).1

theorem renderLine_length (symbols : List Char) (skip : EdOp) :
    ∀ (ops : List EdOp) (idx : Int), (renderLine symbols skip idx ops).1.length = ops.length := by
  intro ops
  induction ops with
  | nil => intro idx; rfl
  | cons op rest ih =>
    intro idx
    by_cases h : op = skip <;> simp [renderLine, h, ih]

theorem renderLine_snd (symbols : List Char) (skip : EdOp) :
    ∀ (ops : List EdOp) (idx : Int),
      (renderLine symbols skip idx ops).2 = idx + countNon skip ops := by
  intro ops
  induction ops with
  | nil => intro idx; simp [renderLine, countNon]
  | cons op rest ih =>
    intro idx
    rw [countNon_cons]
    by_cases h : op = skip
    · simp [renderLine, h, ih]
    · simp [renderLine, h, ih]
      ring

theorem renderLine_getD (symbols : List Char) (skip : EdOp) :
    ∀ (ops : List EdOp) (idx : Int) (j : Nat), j < ops.length →
      (renderLine symbols skip idx ops).1.getD j '-'
        = if ops.getD j skip = skip then '-'
          else charAt symbols (idx + 1 + countNon skip (ops.take j)) := by
  intro ops
  induction ops with
  | nil => intro idx j hj; simp at hj
  | cons op rest ih =>
    intro idx j hj
    by_cases h : op = skip
    · cases j with
      | zero => simp [renderLine, h]
      | succ j0 =>
        have hj0 : j0 < rest.length := by simp at hj; omega
        simp only [renderLine, if_pos h, List.getD_cons_succ, List.take_succ_cons,
          countNon_cons, if_pos h]
        rw [ih idx j0 hj0]
        simp
    · cases j with
      | zero => simp [renderLine, h, countNon]
      | succ j0 =>
        have hj0 : j0 < rest.length := by simp at hj; omega
        simp only [renderLine, if_neg h, List.getD_cons_succ, List.take_succ_cons,
          countNon_cons]
        rw [ih (idx + 1) j0 hj0]
        split
        · rfl
        · congr 1
          ring

theorem chunks50Go_congr :
    ∀ (f1 f2 : Nat) (l : List EdOp), l.length ≤ f1 → l.length ≤ f2 →
      chunks50Go f1 l = chunks50Go f2 l := by
  intro f1
  induction f1 with
  | zero =>
    intro f2 l h1 h2
    have hl : l = [] := List.length_eq_zero.mp (Nat.le_zero.mp h1)
    subst hl
    cases f2 <;> rfl
  | succ g1 ih =>
    intro f2 l h1 h2
    cases l with
    | nil => cases f2 <;> rfl
    | cons c cs =>
      cases f2 with
      | zero => simp at h2
      | succ g2 =>
        simp only [chunks50Go]
        rw [ih g2 ((c :: cs).drop 50)
          (by simp only [List.length_drop, List.length_cons] at h1 ⊢; omega)
          (by simp only [List.length_drop, List.length_cons] at h2 ⊢; omega)]

theorem chunks50_cons (l : List EdOp) (h : l ≠ []) :
    chunks50 l = l.take 50 :: chunks50 (l.drop 50) := by
  cases l with
  | nil => exact absurd rfl h
  | cons c cs =>
    unfold chunks50
    simp only [List.length_cons, chunks50Go]
    congr 1
    exact chunks50Go_congr cs.length ((c :: cs).drop 50).length ((c :: cs).drop 50)
      (by simp only [List.length_drop, List.length_cons]; omega) le_rfl

theorem chunks50_get? :
    ∀ (i : Nat) (l : List EdOp),
      (chunks50 l).get? i
        = if 50 * i < l.length then some ((l.drop (50 * i)).take 50) else none := by
  intro i
  induction i with
  | zero =>
    intro l
    cases l with
    | nil => simp [chunks50, chunks50Go]
    | cons c cs =>
      rw [chunks50_cons _ (by simp)]
      simp
  | succ i0 ih =>
    intro l
    cases l with
    | nil => simp [chunks50, chunks50Go]
    | cons c cs =>
      rw [chunks50_cons _ (by simp)]
      simp only [List.get?_cons_succ]
      rw [ih ((c :: cs).drop 50), List.drop_drop]
      have harith : 50 + 50 * i0 = 50 * (i0 + 1) := by ring
      rw [harith]
      simp only [List.length_drop, List.length_cons]
      split <;> split <;> first | rfl | omega

theorem chunks50_lt_length (l : List EdOp) (i : Nat) :
    i < (chunks50 l).length ↔ 50 * i < l.length := by
  constructor
  · intro h
    by_contra hc
    have hx := chunks50_get? i l
    rw [if_neg hc, List.get?_eq_none] at hx
    omega
  · intro h
    by_contra hc
    have hle : (chunks50 l).length ≤ i := by omega
    have hx := chunks50_get? i l
    rw [List.get?_eq_none.mpr hle, if_pos h] at hx
    exact absurd hx (by simp)

theorem chunks50_flatten_bound :
    ∀ (n : Nat) (l : List EdOp), l.length ≤ n → (chunks50 l).flatten = l
  | _, [], _ => rfl
  | Nat.succ n, c :: cs, h => by
    rw [chunks50_cons _ (by simp), List.flatten_cons,
      chunks50_flatten_bound n ((c :: cs).drop 50) (by simp at h ⊢; omega)]
    exact List.take_append_drop 50 (c :: cs)
  | 0, c :: cs, h => by simp at h

theorem chunks50_flatten (l : List EdOp) : (chunks50 l).flatten = l :=
  chunks50_flatten_bound l.length l le_rfl

theorem chunks50_take_flatten :
    ∀ (i : Nat) (l : List EdOp), ((chunks50 l).take i).flatten = l.take (50 * i) := by
  intro i
  induction i with
  | zero => intro l; simp
  | succ i0 ih =>
    intro l
    cases l with
    | nil => simp [chunks50, chunks50Go]
    | cons c cs =>
      rw [chunks50_cons _ (by simp), List.take_succ_cons, List.flatten_cons, ih ((c :: cs).drop 50)]
      have harith : 50 * (i0 + 1) = 50 + 50 * i0 := by ring
      rw [harith, List.take_add]

theorem get?_eq_some_getD {α : Type} :
    ∀ (l : List α) (i : Nat) (d : α), i < l.length → l.get? i = some (l.getD i d)
  | [], i, d, h => by simp at h
  | a :: l, 0, d, h => rfl
  | a :: l, Nat.succ i0, d, h => by
    simp only [List.get?_cons_succ, List.getD_cons_succ]
    exact get?_eq_some_getD l i0 d (by simp at h; omega)

theorem renderChunks_length (query target : List Char) :
    ∀ (ws : List (List EdOp)) (tIdx qIdx : Int),
      (renderChunks query target ws tIdx qIdx).length = ws.length := by
  intro ws
  induction ws with
  | nil => intro _ _; rfl
  | cons w rest ih => intro tIdx qIdx; simp [renderChunks, ih]

theorem renderBlock1_snd (query target : List Char) (tIdx qIdx : Int) (w : List EdOp) :
    (renderBlock1 query target tIdx qIdx w).2.1 = tIdx + countNon EdOp.EDLIB_EDOP_INSERT w
    ∧ (renderBlock1 query target tIdx qIdx w).2.2 = qIdx + countNon EdOp.EDLIB_EDOP_DELETE w := by
  unfold renderBlock1
  exact ⟨renderLine_snd target EdOp.EDLIB_EDOP_INSERT w tIdx,
    renderLine_snd query EdOp.EDLIB_EDOP_DELETE w qIdx⟩

theorem renderChunks_get? (query target : List Char) :
    ∀ (ws : List (List EdOp)) (i : Nat) (tIdx qIdx : Int),
      (renderChunks query target ws tIdx qIdx).get? i
        = (ws.get? i).map (fun w =>
            (renderBlock1 query target
              (tIdx + countNon EdOp.EDLIB_EDOP_INSERT ((ws.take i).flatten))
              (qIdx + countNon EdOp.EDLIB_EDOP_DELETE ((ws.take i).flatten)) w).1) := by
  intro ws
  induction ws with
  | nil => intro i tIdx qIdx; simp [renderChunks]
  | cons w rest ih =>
    intro i tIdx qIdx
    cases i with
    | zero =>
      simp [renderChunks, countNon]
    | succ i0 =>
      simp only [renderChunks, List.get?_cons_succ, List.take_succ_cons, List.flatten_cons]
      rw [ih i0 _ _, (renderBlock1_snd query target tIdx qIdx w).1,
        (renderBlock1_snd query target tIdx qIdx w).2, countNon_append, countNon_append]
      simp only [Int.add_assoc]

/-- C5: the renderer processes the edit script in fixed windows of 50
operations (the windows partition the script in order; every window has length
min 50 (remaining), so only the final one may be shorter) and emits one block
of three lines per window: a target line with a dash exactly for INSERT and the
next target symbol otherwise, a marker line with a bar exactly for MATCH and a
space otherwise, and a query line with a dash exactly for DELETE and the next
query symbol otherwise; each sequence line carries its inclusive coordinate
range, from the clamped first cursor of the window to the cursor after the
window. -/
theorem c5_renderer (query target : List Char) (al : List EdOp) (position : Int)
    (modeCode : EdlibAlignMode) (i j : Nat)
    (hi : i < (chunks50 al).length) (hj : j < ((chunks50 al).getD i []).length) :
    (chunks50 al).flatten = al
    ∧ (printAlignment query target al position modeCode).length = (chunks50 al).length
    ∧ ((chunks50 al).getD i []).length = min 50 (al.length - 50 * i)
    ∧ ((printAlignment query target al position modeCode).getD i default).markerLine
        = ((chunks50 al).getD i []).map
            (fun op => if op = EdOp.EDLIB_EDOP_MATCH then '|' else ' ')
    ∧ ((printAlignment query target al position modeCode).getD i default).targetLine.length
        = ((chunks50 al).getD i []).length
    ∧ ((printAlignment query target al position modeCode).getD i default).queryLine.length
        = ((chunks50 al).getD i []).length
    ∧ ((printAlignment query target al position modeCode).getD i default).targetRange
        = (max (windowStartIdx EdOp.EDLIB_EDOP_INSERT (-1)
              (tInit position al modeCode
                + countNon EdOp.EDLIB_EDOP_INSERT (al.take (50 * i)))
              ((chunks50 al).getD i [])) 0,
           tInit position al modeCode + countNon EdOp.EDLIB_EDOP_INSERT (al.take (50 * i))
             + countNon EdOp.EDLIB_EDOP_INSERT ((chunks50 al).getD i []))
    ∧ ((printAlignment query target al position modeCode).getD i default).queryRange
        = (max (windowStartIdx EdOp.EDLIB_EDOP_DELETE
              (-1 + countNon EdOp.EDLIB_EDOP_DELETE (al.take (50 * i)))
              (-1 + countNon EdOp.EDLIB_EDOP_DELETE (al.take (50 * i)))
              ((chunks50 al).getD i [])) 0,
           -1 + countNon EdOp.EDLIB_EDOP_DELETE (al.take (50 * i))
             + countNon EdOp.EDLIB_EDOP_DELETE ((chunks50 al).getD i []))
    ∧ ((printAlignment query target al position modeCode).getD i default).targetLine.getD j '-'
        = (if ((chunks50 al).getD i []).getD j EdOp.EDLIB_EDOP_INSERT
              = EdOp.EDLIB_EDOP_INSERT
           then '-'
           else charAt target (tInit position al modeCode
             + countNon EdOp.EDLIB_EDOP_INSERT (al.take (50 * i)) + 1
             + countNon EdOp.EDLIB_EDOP_INSERT (((chunks50 al).getD i []).take j)))
    ∧ ((printAlignment query target al position modeCode).getD i default).queryLine.getD j '-'
        = (if ((chunks50 al).getD i []).getD j EdOp.EDLIB_EDOP_DELETE
              = EdOp.EDLIB_EDOP_DELETE
           then '-'
           else charAt query (-1
             + countNon EdOp.EDLIB_EDOP_DELETE (al.take (50 * i)) + 1
             + countNon EdOp.EDLIB_EDOP_DELETE (((chunks50 al).getD i []).take j))) := by
  have hcond : 50 * i < al.length := (chunks50_lt_length al i).mp hi
  have hw : (chunks50 al).get? i = some ((chunks50 al).getD i []) :=
    get?_eq_some_getD _ i [] hi
  have hchunkval : (chunks50 al).getD i [] = (al.drop (50 * i)).take 50 := by
    have hx := chunks50_get? i al
    rw [if_pos hcond, hw] at hx
    exact Option.some.inj hx
  have hpl : (printAlignment query target al position modeCode).length
      = (chunks50 al).length := renderChunks_length query target (chunks50 al) _ _
  have hpi : i < (printAlignment query target al position modeCode).length := by
    rw [hpl]; exact hi
  have hblock : (printAlignment query target al position modeCode).getD i default
      = (renderBlock1 query target
          (tInit position al modeCode + countNon EdOp.EDLIB_EDOP_INSERT (al.take (50 * i)))
          (-1 + countNon EdOp.EDLIB_EDOP_DELETE (al.take (50 * i)))
          ((chunks50 al).getD i [])).1 := by
    have h1 : (printAlignment query target al position modeCode).get? i
        = some ((renderBlock1 query target
            (tInit position al modeCode + countNon EdOp.EDLIB_EDOP_INSERT (al.take (50 * i)))
            (-1 + countNon EdOp.EDLIB_EDOP_DELETE (al.take (50 * i)))
            ((chunks50 al).getD i [])).1) := by
      unfold printAlignment
      rw [renderChunks_get?, chunks50_take_flatten, hw]
      rfl
    rw [get?_eq_some_getD _ i default hpi] at h1
    exact Option.some.inj h1
  refine ⟨chunks50_flatten al, hpl, ?_, ?_, ?_, ?_, ?_, ?_, ?_, ?_⟩
  · rw [hchunkval]
    simp [List.length_take, List.length_drop]
  · rw [hblock]
    unfold renderBlock1
    simp only
  · rw [hblock]
    unfold renderBlock1
    simp only
    exact renderLine_length target EdOp.EDLIB_EDOP_INSERT _ _
  · rw [hblock]
    unfold renderBlock1
    simp only
    exact renderLine_length query EdOp.EDLIB_EDOP_DELETE _ _
  · rw [hblock]
    unfold renderBlock1
    simp only
    rw [renderLine_snd]
  · rw [hblock]
    unfold renderBlock1
    simp only
    rw [renderLine_snd]
  · rw [hblock]
    unfold renderBlock1
    simp only
    exact renderLine_getD target EdOp.EDLIB_EDOP_INSERT _ _ j hj
  · rw [hblock]
    unfold renderBlock1
    simp only
    exact renderLine_getD query EdOp.EDLIB_EDOP_DELETE _ _ j hj

/-- Witness for C5 at a four-operation edit script, first window, operation 1. -/
theorem c5_renderer_witness :
    ((printAlignment ['A', 'C', 'G', 'T'] ['A', 'C', 'G', 'T']
        [EdOp.EDLIB_EDOP_MATCH, EdOp.EDLIB_EDOP_INSERT, EdOp.EDLIB_EDOP_DELETE,
          EdOp.EDLIB_EDOP_MISMATCH] 0 EdlibAlignMode.EDLIB_MODE_NW).getD 0 default).markerLine
      = ((chunks50 [EdOp.EDLIB_EDOP_MATCH, EdOp.EDLIB_EDOP_INSERT, EdOp.EDLIB_EDOP_DELETE,
          EdOp.EDLIB_EDOP_MISMATCH]).getD 0 []).map
          (fun op => if op = EdOp.EDLIB_EDOP_MATCH then '|' else ' ') :=
  (c5_renderer ['A', 'C', 'G', 'T'] ['A', 'C', 'G', 'T']
    [EdOp.EDLIB_EDOP_MATCH, EdOp.EDLIB_EDOP_INSERT, EdOp.EDLIB_EDOP_DELETE,
      EdOp.EDLIB_EDOP_MISMATCH] 0 EdlibAlignMode.EDLIB_MODE_NW 0 1
    (by decide) (by decide)).2.2.2.1
